import Mathlib

/-!
# Verification of the functional-enrichment analysis engine

A shallow embedding, in Lean 4, of the statistical core of the
`functional_enrichment_app_rnaseq` repository:

* `build_kegg_id_mapping` (src/analysis/kegg_analysis.py) — the cascading
  identifier resolver;
* `run_kegg_ora` (src/analysis/kegg_analysis.py) — over-representation
  analysis for KEGG pathways;
* `run_cog_enrichment` (src/analysis/cog_analysis.py) — over-representation
  analysis for COG functional categories;
* the identifier-remapping / deduplication prelude of `run_kegg_gsea`
  (src/analysis/kegg_analysis.py).

Python dictionaries are modelled as insertion-ordered association lists
(`List (String × β)`): assignment to an existing key updates the value in
place, assignment to a fresh key appends.  Python `set`s are modelled as
duplicate-free lists (only membership and cardinality are used by the code).
Floating point arithmetic is modelled over `ℚ`; `round(x, d)` is modelled as
decimal rounding half-to-even, matching CPython semantics.  Library calls are
embedded from their documented algorithms: `scipy.stats.fisher_exact`
(one-sided `greater`: the hypergeometric upper tail, together with its
sample odds-ratio convention including the `inf`/`nan` degenerate branches)
and `statsmodels multipletests(method=fdr_bh)` (argsort, `p·m/rank`,
reverse cumulative minimum, clip at 1, scatter back).
-/

/-- Python `dict` assignment `d[k] = v` on an insertion-ordered association
list: update in place when the key is present, append otherwise. -/
def insertD {β : Type} (t : List (String × β)) (k : String) (v : β) :
    List (String × β) :=
  if (t.lookup k).isSome then
    t.map (fun p => if p.1 = k then (k, v) else p)
  else
    t ++ [(k, v)]

/-- Round a rational to the nearest integer, ties to even — the semantics of
CPython `round` on an exactly-representable value. -/
def roundHalfEven (q : ℚ) : ℤ :=
  let f : ℤ := ⌊q⌋
  let r : ℚ := q - f
  if r < 1/2 then f
  else if 1/2 < r then f + 1
  else if 2 ∣ f then f else f + 1

/-- Python `round(x, d)`: decimal rounding to `d` places, half to even. -/
def roundDec (d : ℕ) (q : ℚ) : ℚ :=
  (roundHalfEven (q * 10 ^ d) : ℚ) / 10 ^ d

/-- The sample odds ratio as `scipy.stats.fisher_exact` reports it: a finite
rational, `inf`, or `nan` (the zero-margin degenerate case). -/
inductive OddsVal : Type
  | val (q : ℚ)
  | inf
  | nan
  deriving DecidableEq, Repr

/-- One-sided (`greater`) Fisher p-value for the table `[[a,b],[c,d]]`:
the upper tail of the hypergeometric distribution with population `a+b+c+d`,
`a+b` successes, and `a+c` draws (`scipy` computes `hypergeom.sf(a-1, ...)`). -/
def hypTailQ (a b c d : ℕ) : ℚ :=
  (∑ x ∈ Finset.Ico a (a + c + 1), (a + b).choose x * (c + d).choose (a + c - x) : ℕ) /
    ((a + b + c + d).choose (a + c) : ℚ)

/-- `scipy.stats.fisher_exact(table, alternative="greater")`.  Negative cells
raise `ValueError` (`none` here); a zero row or column margin returns
`(nan, 1.0)`; otherwise the sample odds ratio `a*d/(b*c)` (`inf` when `b` or
`c` is zero) and the hypergeometric upper-tail p-value. -/
def fisherExact (a b c d : ℤ) : Option (OddsVal × ℚ) :=
  if a < 0 ∨ b < 0 ∨ c < 0 ∨ d < 0 then none
  else
    let a' := a.toNat
    let b' := b.toNat
    let c' := c.toNat
    let d' := d.toNat
    if a' + b' = 0 ∨ c' + d' = 0 ∨ a' + c' = 0 ∨ b' + d' = 0 then
      some (OddsVal.nan, 1)
    else
      some
        (if 0 < c' ∧ 0 < b' then OddsVal.val ((a' * d' : ℚ) / (b' * c')) else OddsVal.inf,
         hypTailQ a' b' c' d')

/-- `np.minimum.accumulate` applied from the right (as `statsmodels` does via
the double reversal in `fdr_bh`): each position is replaced by the minimum of
its own value and everything after it.  The first component (the original
index of the p-value) rides along untouched. -/
def suffMin : List (ℕ × ℚ) → List (ℕ × ℚ)
  | [] => []
  | (i, r) :: rest =>
    let s := suffMin rest
    (i, match s.head? with | none => r | some q => min r q.2) :: s

/-- The comparison used by the stable argsort of `fdr_bh`: ascending on the
p-value, position as the stable tie-break. -/
def bhLe (x y : ℕ × ℚ) : Prop := x.2 ≤ y.2

instance : DecidableRel bhLe := fun x y => inferInstanceAs (Decidable (x.2 ≤ y.2))

instance : IsTotal (ℕ × ℚ) bhLe := ⟨fun a b => le_total a.2 b.2⟩

instance : IsTrans (ℕ × ℚ) bhLe := ⟨fun _ _ _ hab hbc => le_trans hab hbc⟩

/-- Stage 1 of `statsmodels multipletests(method="fdr_bh")`: stable argsort
of the p-values, ascending, each paired with its original position (a stable
sort's output is unique, so insertion sort embeds it faithfully). -/
def bhSorted (ps : List ℚ) : List (ℕ × ℚ) :=
  ps.enum.insertionSort bhLe

/-- Stage 2: raw corrected values `p / ecdffactor = p · m / rank`. -/
def bhRaws (ps : List ℚ) : List (ℕ × ℚ) :=
  (bhSorted ps).enum.map (fun je => (je.2.1, (ps.length : ℚ) / (je.1 + 1) * je.2.2))

/-- Stages 3–4: cumulative minimum from the right, then clip at 1. -/
def bhClipped (ps : List ℚ) : List (ℕ × ℚ) :=
  (suffMin (bhRaws ps)).map (fun p => (p.1, min p.2 1))

/-- `statsmodels.stats.multitest.multipletests(pvals, method="fdr_bh")`:
stable argsort ascending, raw corrected values `p·m/rank`, cumulative
minimum from the right, clip at 1, scatter back to original positions. -/
def bhAdjust (ps : List ℚ) : List ℚ :=
  (List.range ps.length).map (fun i => ((bhClipped ps).lookup i).getD 0)

/-- Python `str.strip()`: drop leading and trailing whitespace.  (Core
`String.trim` is kernel-opaque, so the Python string operations are embedded
directly over the character list.) -/
def pyStrip (s : String) : String :=
  ⟨((s.data.dropWhile Char.isWhitespace).reverse.dropWhile Char.isWhitespace).reverse⟩

/-- Python `str.lower()` (the identifiers involved are ASCII). -/
def pyLower (s : String) : String :=
  ⟨s.data.map Char.toLower⟩

/-- Python `desc.split(';')[0]`: the segment before the first semicolon. -/
def pySymPart (desc : String) : String :=
  ⟨desc.data.takeWhile (fun c => c != ';')⟩

/-- Python `desc.split(';', 1)[1]`: everything after the first semicolon. -/
def pyProdPart (desc : String) : String :=
  ⟨(desc.data.dropWhile (fun c => c != ';')).drop 1⟩

/-- The first argument occurs verbatim at the head of the second. -/
def startsWithList : List Char → List Char → Bool
  | [], _ => true
  | _ :: _, [] => false
  | a :: as, b :: bs => a == b && startsWithList as bs

/-- Python `needle in hay` (substring test), needle second. -/
def containsList : List Char → List Char → Bool
  | [], needle => needle.isEmpty
  | hay@(_ :: t), needle => startsWithList needle hay || containsList t needle

def containsSub (hay needle : String) : Bool :=
  containsList hay.data needle.data

/-- The "symbol" component of a KEGG description: the segment before the
semicolon, stripped and lower-cased — the key under which
`build_kegg_id_mapping` stores the gene in `kegg_symbol_to_id`.  `none` when
the description has no semicolon. -/
def symKeyOf (desc : String) : Option String :=
  if desc.data.contains ';' then some (pyLower (pyStrip (pySymPart desc))) else none

/-- The "product" component of a KEGG description: after the semicolon (or the
whole description when there is none), stripped and lower-cased; only kept
when longer than 5 characters (`meaningful product description`). -/
def prodKeyOf (desc : String) : Option String :=
  if desc.data.contains ';' then
    let p := pyLower (pyStrip (pyProdPart desc))
    if 5 < p.length then some p else none
  else
    let p := pyLower (pyStrip desc)
    if 5 < p.length then some p else none

/-- `kegg_ids_lower = {k.lower(): k for k in kegg_ids}`. -/
def lowerTableOf (kegg_genes : List (String × String)) : List (String × String) :=
  kegg_genes.foldl (fun t p => insertD t (pyLower p.1) p.1) []

/-- `kegg_symbol_to_id`: gene-symbol (lower-cased) → KEGG gene id. -/
def symTableOf (kegg_genes : List (String × String)) : List (String × String) :=
  kegg_genes.foldl
    (fun t p =>
      match symKeyOf p.2 with
      | some s => insertD t s p.1
      | none => t)
    []

/-- `kegg_product_to_id`: product-description (lower-cased) → KEGG gene id. -/
def prodTableOf (kegg_genes : List (String × String)) : List (String × String) :=
  kegg_genes.foldl
    (fun t p =>
      match prodKeyOf p.2 with
      | some s => insertD t s p.1
      | none => t)
    []

/-- The per-identifier five-strategy cascade of `build_kegg_id_mapping`,
applied to the stripped input id `s`: exact id match, case-insensitive id
match, alternate-name symbol match, own-id symbol match, then the product
description scan (exact equality, or substring when longer than 15). -/
def strategyResult (kegg_genes lowerT symT prodT gene_name_map product_map :
    List (String × String)) (s : String) : Option String :=
  if (kegg_genes.lookup s).isSome then some s
  else
    match lowerT.lookup (pyLower s) with
    | some k => some k
    | none =>
      match
        (match gene_name_map.lookup s with
         | some nm => if nm ≠ "" then symT.lookup (pyLower nm) else none
         | none => none) with
      | some k => some k
      | none =>
        match symT.lookup (pyLower s) with
        | some k => some k
        | none =>
          match product_map.lookup s with
          | some prod =>
            if prod ≠ "" then
              let pl := pyLower (pyStrip prod)
              if 10 < pl.length then
                (prodT.find? (fun e =>
                  pl == e.1 || (decide (15 < pl.length) && containsSub e.1 pl))).map Prod.snd
              else none
            else none
          | none => none

/-- `build_kegg_id_mapping(input_gene_ids, kegg_genes, org_code,
gene_name_map, product_map)`: skip missing ids, strip, then run the strategy
cascade and record the first-successful match.  `org_code` is accepted but
unused, as in the source. -/
def build_kegg_id_mapping (input_gene_ids : List (Option String))
    (kegg_genes : List (String × String)) (org_code : String)
    (gene_name_map product_map : List (String × String)) : List (String × String) :=
  let lowerT := lowerTableOf kegg_genes
  let symT := symTableOf kegg_genes
  let prodT := prodTableOf kegg_genes
  input_gene_ids.foldl
    (fun acc g =>
      match g with
      | none => acc
      | some g0 =>
        let s := pyStrip g0
        match strategyResult kegg_genes lowerT symT prodT gene_name_map product_map s with
        | some v => insertD acc s v
        | none => acc)
    []

/-- One step of the resolver loop. -/
def resolverStep (kegg_genes lowerT symT prodT gene_name_map product_map :
    List (String × String)) (acc : List (String × String)) (g : Option String) :
    List (String × String) :=
  match g with
  | none => acc
  | some g0 =>
    let s := pyStrip g0
    match strategyResult kegg_genes lowerT symT prodT gene_name_map product_map s with
    | some v => insertD acc s v
    | none => acc

/-- The reference gene that the source's `kegg_symbol_to_id` dictionary ends
up associating with a symbol: the LAST gene (in reference order) whose
description carries that symbol — each dict assignment overwrites the
previous one. -/
def lastSymCandidate (kg : List (String × String)) (sym : String) : Option String :=
  ((kg.filter (fun p => decide (symKeyOf p.2 = some sym))).getLast?).map Prod.fst

/-- Worker for `dedupStr`: drop elements already seen. -/
def dedupStrGo : List String → List String → List String
  | _, [] => []
  | seen, x :: t =>
    if x ∈ seen then dedupStrGo seen t else x :: dedupStrGo (x :: seen) t

/-- Python `set(...)`: a duplicate-free list (keeping first occurrences); the
code only uses membership, intersection and cardinality. -/
def dedupStr (l : List String) : List String := dedupStrGo [] l

/-- `fisher_exact` applied to the contingency table the two ORA engines build:
`[[k, n-k], [K-k, max(0, N-K-n+k)]]`. -/
def fisherOf (k n K N : ℕ) : Option (OddsVal × ℚ) :=
  fisherExact (k : ℤ) ((n : ℤ) - k) ((K : ℤ) - k) (max 0 ((N : ℤ) - K - n + k))

/-- `run_kegg_ora`'s initial id-mapping step: when a non-empty mapping is
supplied, foreground/background become the set of mapped ids (unmapped
members silently dropped); otherwise the raw id set.  An empty dict is falsy
in Python and behaves like no mapping. -/
def mappedSet (ids : List String) (id_mapping : Option (List (String × String))) :
    List String :=
  match id_mapping with
  | none => dedupStr ids
  | some m => if m = [] then dedupStr ids else dedupStr (ids.filterMap (fun g => m.lookup g))

/-- `pathway_gene_sets[pw].add(gene)` (creating the set on first touch). -/
def addGeneToPathway (acc : List (String × List String)) (pw g : String) :
    List (String × List String) :=
  let s := (acc.lookup pw).getD []
  insertD acc pw (if g ∈ s then s else s ++ [g])

/-- The pathway → gene-set index of `run_kegg_ora`, restricted to
background-mapped genes. -/
def buildPathwaySets (links : List (String × List String)) (allMapped : List String) :
    List (String × List String) :=
  links.foldl
    (fun acc gp =>
      if gp.1 ∈ allMapped then gp.2.foldl (fun acc2 pw => addGeneToPathway acc2 pw gp.1) acc
      else acc)
    []

/-- `round(odds_ratio, 4)` as `run_kegg_ora` stores it — no clamping, so an
infinite odds ratio stays infinite. -/
def roundOddsKegg (o : OddsVal) : OddsVal :=
  match o with
  | OddsVal.val q => OddsVal.val (roundDec 4 q)
  | OddsVal.inf => OddsVal.inf
  | OddsVal.nan => OddsVal.nan

/-- One row of the `run_kegg_ora` result frame. -/
structure KeggOraRecord where
  Pathway_ID : String
  Description : String
  GeneRatio : String
  BgRatio : String
  pvalue : ℚ
  OddsRatio : OddsVal
  Count : ℕ
  Genes : String
  p_adjust : ℚ
  deriving DecidableEq, Repr

/-- The per-pathway loop of `run_kegg_ora` (before BH correction): size
filter, skip `k = 0`, Fisher test (a `ValueError` skips the pathway). -/
def keggOraBase (de_gene_ids all_gene_ids : List String)
    (gene_pathway_links : List (String × List String))
    (pathways : List (String × String))
    (id_mapping : Option (List (String × String)))
    (min_size max_size : ℕ) : List KeggOraRecord :=
  let de_mapped := mappedSet de_gene_ids id_mapping
  let all_mapped := mappedSet all_gene_ids id_mapping
  let pathway_gene_sets := buildPathwaySets gene_pathway_links all_mapped
  let N := all_mapped.length
  let n := de_mapped.length
  pathway_gene_sets.filterMap
    (fun pws =>
      let K := pws.2.length
      if K < min_size ∨ max_size < K then none
      else
        let inter := pws.2.filter (fun g => decide (g ∈ de_mapped))
        let k := inter.length
        if k = 0 then none
        else
          match fisherOf k n K N with
          | none => none
          | some op =>
            some {
              Pathway_ID := pws.1
              Description := (pathways.lookup pws.1).getD pws.1
              GeneRatio := toString k ++ "/" ++ toString n
              BgRatio := toString K ++ "/" ++ toString N
              pvalue := op.2
              OddsRatio := roundOddsKegg op.1
              Count := k
              Genes := String.intercalate ";" inter
              p_adjust := 0 })

/-- `run_kegg_ora`: per-pathway Fisher tests, then the BH-corrected
`p.adjust` column, then a stable ascending sort on the raw p-value. -/
def run_kegg_ora (de_gene_ids all_gene_ids : List String)
    (gene_pathway_links : List (String × List String))
    (pathways : List (String × String))
    (id_mapping : Option (List (String × String)))
    (min_size max_size : ℕ) : List KeggOraRecord :=
  let base := keggOraBase de_gene_ids all_gene_ids gene_pathway_links pathways
    id_mapping min_size max_size
  if base = [] then []
  else
    let qs := bhAdjust (base.map (fun r => r.pvalue))
    let withQ := (base.zip qs).map (fun rq => { rq.1 with p_adjust := rq.2 })
    withQ.insertionSort (fun a b => a.pvalue ≤ b.pvalue)

/-- `COG_CATEGORIES` (src/analysis/cog_analysis.py). -/
def COG_CATEGORIES : List (String × String) := [
  ("A", "RNA processing and modification"),
  ("B", "Chromatin structure and dynamics"),
  ("C", "Energy production and conversion"),
  ("D", "Cell cycle control, cell division, chromosome partitioning"),
  ("E", "Amino acid transport and metabolism"),
  ("F", "Nucleotide transport and metabolism"),
  ("G", "Carbohydrate transport and metabolism"),
  ("H", "Coenzyme transport and metabolism"),
  ("I", "Lipid transport and metabolism"),
  ("J", "Translation, ribosomal structure and biogenesis"),
  ("K", "Transcription"),
  ("L", "Replication, recombination and repair"),
  ("M", "Cell wall/membrane/envelope biogenesis"),
  ("N", "Cell motility"),
  ("O", "Post-translational modification, protein turnover, chaperones"),
  ("P", "Inorganic ion transport and metabolism"),
  ("Q", "Secondary metabolites biosynthesis, transport, and catabolism"),
  ("R", "General function prediction only"),
  ("S", "Function unknown"),
  ("T", "Signal transduction mechanisms"),
  ("U", "Intracellular trafficking, secretion, and vesicular transport"),
  ("V", "Defense mechanisms"),
  ("W", "Extracellular structures"),
  ("X", "Mobilome: prophages, transposons"),
  ("Y", "Nuclear structure"),
  ("Z", "Cytoskeleton")]

/-- `sorted(COG_CATEGORIES.keys())`. -/
def cogCategoryList : List String := COG_CATEGORIES.map Prod.fst

/-- Per-category gene counting of `run_cog_enrichment`: each gene of the set
contributes one count per occurrence of the category letter in its annotation
list. -/
def countCat (s : List String) (cog_mapping : List (String × List String))
    (cat : String) : ℕ :=
  (s.map (fun g => ((cog_mapping.lookup g).getD []).count cat)).sum

/-- `round(odds_ratio, 4) if not np.isinf(odds_ratio) else 999.0` — the COG
engine's sentinel for an infinite odds ratio (`nan` is not infinite, so it
passes through `round` unclamped). -/
def cogClampOdds (o : OddsVal) : OddsVal :=
  match o with
  | OddsVal.inf => OddsVal.val 999
  | OddsVal.val q => OddsVal.val (roundDec 4 q)
  | OddsVal.nan => OddsVal.nan

/-- One row of the `run_cog_enrichment` result frame. -/
structure CogRecord where
  COG_Category : String
  Description : String
  DE_Count : ℕ
  Background_Count : ℕ
  DE_Total : ℕ
  Background_Total : ℕ
  Ratio_DE : ℚ
  Ratio_BG : ℚ
  Fold_Enrichment : ℚ
  pvalue : ℚ
  OddsRatio : OddsVal
  p_adjust : ℚ
  deriving DecidableEq, Repr

/-- The per-category loop of `run_cog_enrichment` (before BH correction):
skip `K < min_count`, Fisher test (a `ValueError` skips the category).
Categories with `k = 0` are kept, unlike the pathway engine. -/
def cogBase (de_gene_ids all_gene_ids : List String)
    (cog_mapping : List (String × List String)) (min_count : ℕ) : List CogRecord :=
  let de_set := dedupStr de_gene_ids
  let all_set := dedupStr all_gene_ids
  let N := all_set.length
  let n := de_set.length
  cogCategoryList.filterMap
    (fun cat =>
      let K := countCat all_set cog_mapping cat
      let k := countCat de_set cog_mapping cat
      if K < min_count then none
      else
        match fisherOf k n K N with
        | none => none
        | some op =>
          some {
            COG_Category := cat
            Description := (COG_CATEGORIES.lookup cat).getD "Unknown"
            DE_Count := k
            Background_Count := K
            DE_Total := n
            Background_Total := N
            Ratio_DE := if 0 < n then roundDec 2 ((k : ℚ) / n * 100) else 0
            Ratio_BG := if 0 < N then roundDec 2 ((K : ℚ) / N * 100) else 0
            Fold_Enrichment :=
              if 0 < K ∧ 0 < n ∧ 0 < N then roundDec 4 (((k : ℚ) / n) / ((K : ℚ) / N))
              else 0
            pvalue := op.2
            OddsRatio := cogClampOdds op.1
            p_adjust := 0 })

/-- `run_cog_enrichment`: per-category Fisher tests over the 26 alphabetical
COG letters, then the BH-corrected `p.adjust` column, then a stable ascending
sort on the raw p-value. -/
def run_cog_enrichment (de_gene_ids all_gene_ids : List String)
    (cog_mapping : List (String × List String)) (min_count : ℕ) : List CogRecord :=
  let base := cogBase de_gene_ids all_gene_ids cog_mapping min_count
  if base = [] then []
  else
    let qs := bhAdjust (base.map (fun r => r.pvalue))
    let withQ := (base.zip qs).map (fun rq => { rq.1 with p_adjust := rq.2 })
    withQ.insertionSort (fun a b => a.pvalue ≤ b.pvalue)

/-- Worker for `dedupFirst`: drop rows whose key was already seen. -/
def dedupFirstGo : List String → List (String × ℚ) → List (String × ℚ)
  | _, [] => []
  | seen, x :: t =>
    if x.1 ∈ seen then dedupFirstGo seen t else x :: dedupFirstGo (x.1 :: seen) t

/-- `ranking_mapped[~ranking_mapped.index.duplicated(keep="first")]`: keep
each identifier's first row, drop later duplicates. -/
def dedupFirst (l : List (String × ℚ)) : List (String × ℚ) := dedupFirstGo [] l

/-- The re-identification loop of `run_kegg_gsea`: a ranked gene with a
mapping entry is renamed to its KEGG id, one without keeps its original id
(it stays in the ranking).  A missing or empty (falsy) mapping leaves the
ranking untouched. -/
def gseaRename (ranking : List (String × ℚ))
    (id_mapping : Option (List (String × String))) : List (String × ℚ) :=
  match id_mapping with
  | none => ranking
  | some m =>
    if m = [] then ranking
    else ranking.map (fun gv =>
      (match m.lookup gv.1 with
       | some k => k
       | none => gv.1, gv.2))

/-- The ranking `run_kegg_gsea` hands to the prerank computation: renamed,
then first-occurrence-deduplicated. -/
def gseaRankingPrep (ranking : List (String × ℚ))
    (id_mapping : Option (List (String × String))) : List (String × ℚ) :=
  dedupFirst (gseaRename ranking id_mapping)

/-- Modelled from the spec: the per-category output record of the Rank
Enrichment Engine (§3 RankEnrichmentRecord, §4.4).  The engine itself lives
in the external `gseapy.prerank` call, whose code is not in the repository;
a failed score is a missing (`none`) value. -/
structure RankRecord where
  category : String
  size : ℕ
  es : Option ℚ
  nes : Option ℚ
  pval : Option ℚ
  deriving DecidableEq, Repr

/-- Modelled from the spec: §4.4's running-sum enrichment statistic.  Walk
the ranking from highest to lowest score; a category member increments the
running sum by a weight proportional to its score magnitude, a non-member
decrements by the fixed step `1/(N - size)`; the ES is the deviation of
largest magnitude, sign kept.  Degenerate data (no member in the ranking,
no non-member, or all member weights zero) is an internal numerical failure,
reported as `none`. -/
def esCore (ranking : List (String × ℚ)) (members : List String) : Option ℚ :=
  let N := ranking.length
  let hits := ranking.filter (fun gv => decide (gv.1 ∈ members))
  let nh := hits.length
  let sumW := (hits.map (fun gv => |gv.2|)).sum
  if nh = 0 ∨ nh = N ∨ sumW = 0 then none
  else
    let steps := ranking.map (fun gv =>
      if gv.1 ∈ members then |gv.2| / sumW else -(1 / ((N : ℚ) - (nh : ℚ))))
    let runs := (steps.scanl (· + ·) 0).tail
    some (runs.foldl (fun b x => if |b| < |x| then x else b) 0)

/-- Modelled from the spec: one shuffle of the ranking-to-category
assignment (§4.4: "category membership shuffled, ranking fixed"), given as a
gene relabelling applied to the membership list. -/
def permuteMembers (σ : List (String × String)) (ms : List String) : List String :=
  ms.map (fun g => (σ.lookup g).getD g)

/-- Modelled from the spec: §4.4's normalized enrichment score — observed ES
divided by the mean of the same-sign permutation ES distribution; an empty
same-sign distribution or a zero mean (a degenerate zero-variance null) is
an internal numerical failure, reported as `none`. -/
def nesOf (e : ℚ) (permEs : List ℚ) : Option ℚ :=
  let same := permEs.filter (fun x => decide ((0 ≤ x) = (0 ≤ e)))
  if same.length = 0 then none
  else
    let mean := same.sum / (same.length : ℚ)
    if mean = 0 then none else some (e / mean)

/-- Modelled from the spec: §4.4's nominal p-value — the fraction of
same-sign permutation ES magnitudes meeting or exceeding the observed
magnitude. -/
def pvalOf (e : ℚ) (permEs : List ℚ) : Option ℚ :=
  let same := permEs.filter (fun x => decide ((0 ≤ x) = (0 ≤ e)))
  if same.length = 0 then none
  else some (((same.filter (fun x => decide (|e| ≤ |x|))).length : ℚ) / (same.length : ℚ))

/-- Modelled from the spec: the whole §4.4 computation for a single category,
everything downstream of a failed ES reported as missing for that category
only. -/
def prerankCategory (ranking : List (String × ℚ)) (perms : List (List (String × String)))
    (c : String × List String) : RankRecord :=
  let e? := esCore ranking c.2
  let permEs := perms.filterMap (fun σ => esCore ranking (permuteMembers σ c.2))
  { category := c.1
    size := (ranking.filter (fun gv => decide (gv.1 ∈ c.2))).length
    es := e?
    nes := match e? with | none => none | some e => nesOf e permEs
    pval := match e? with | none => none | some e => pvalOf e permEs }

/-- Modelled from the spec: the category-size filter of §4.4's contract
(categories whose filtered gene-set size lies in `[min_size, max_size]`). -/
def prerankSurviving (ranking : List (String × ℚ)) (catSets : List (String × List String))
    (minSize maxSize : ℕ) : List (String × List String) :=
  catSets.filter (fun c =>
    decide (minSize ≤ (ranking.filter (fun gv => decide (gv.1 ∈ c.2))).length) &&
    decide ((ranking.filter (fun gv => decide (gv.1 ∈ c.2))).length ≤ maxSize))

/-- Modelled from the spec: the Rank Enrichment Engine (`gseapy.prerank`,
code absent from the repository; §4.4): size-filter the categories, return
empty when fewer than 10 usable ranked genes or no category survives, and
otherwise compute every surviving category's record independently. -/
def prerank (ranking : List (String × ℚ)) (catSets : List (String × List String))
    (minSize maxSize : ℕ) (perms : List (List (String × String))) : List RankRecord :=
  let surviving := prerankSurviving ranking catSets minSize maxSize
  if ranking.length < 10 ∨ surviving = [] then []
  else surviving.map (prerankCategory ranking perms)

/-- The single row produced by a small concrete `run_kegg_ora` call. -/
def keggRowInf : KeggOraRecord :=
  { Pathway_ID := "p1", Description := "Path One", GeneRatio := "1/1",
    BgRatio := "3/4", pvalue := 3/4, OddsRatio := OddsVal.inf, Count := 1,
    Genes := "g1", p_adjust := 3/4 }

/-- The single row produced by a small concrete `run_cog_enrichment` call in
which the odds-ratio denominator cell `K - k` is zero. -/
def cogRowInf : CogRecord :=
  { COG_Category := "C", Description := "Energy production and conversion",
    DE_Count := 1, Background_Count := 1, DE_Total := 2, Background_Total := 3,
    Ratio_DE := 50, Ratio_BG := 3333/100, Fold_Enrichment := 3/2,
    pvalue := 2/3, OddsRatio := OddsVal.val 999, p_adjust := 2/3 }

/-- The single row of the concrete `run_cog_enrichment` call used for the C5
rounding counterexample. -/
def cogRowFold : CogRecord :=
  { COG_Category := "C", Description := "Energy production and conversion",
    DE_Count := 1, Background_Count := 3, DE_Total := 3, Background_Total := 7,
    Ratio_DE := 3333/100, Ratio_BG := 2143/50, Fold_Enrichment := 3889/5000,
    pvalue := 31/35, OddsRatio := OddsVal.val (1/2), p_adjust := 31/35 }

/-- A ten-gene ranking for exercising the modelled rank enrichment engine. -/
def rankingC : List (String × ℚ) :=
  [("g1", 1), ("g2", 1), ("g3", 1), ("g4", 1), ("g5", 1),
   ("g6", 1), ("g7", 1), ("g8", 1), ("g9", 1), ("g10", 1)]

/-- Two category sets: one degenerate (covers the whole ranking, so its ES
computation fails) and one healthy. -/
def catsC : List (String × List String) :=
  [("allcat", ["g1", "g2", "g3", "g4", "g5", "g6", "g7", "g8", "g9", "g10"]),
   ("topcat", ["g1", "g2", "g3"])]

theorem lookup_cons_pair {α β : Type} [BEq α] [LawfulBEq α] [DecidableEq α]
    (p : α × β) (es : List (α × β)) (a : α) :
    ((p :: es).lookup a) = if a = p.1 then some p.2 else es.lookup a := by
  rcases p with ⟨k, v⟩
  rw [List.lookup_cons]
  by_cases h : a = k
  · subst h
    simp
  · have hb : (a == k) = false := by simp [h]
    simp [hb, h]

theorem lookup_map_update {β : Type} (t : List (String × β)) (k k' : String) (v : β) :
    (t.map (fun p => if p.1 = k then (k, v) else p)).lookup k' =
      if k' = k then (if (t.lookup k).isSome then some v else none)
      else t.lookup k' := by
  induction t with
  | nil => simp
  | cons p rest ih =>
    simp only [List.map_cons]
    by_cases hpk : p.1 = k
    · by_cases hk' : k' = k
      · simp [lookup_cons_pair, hpk, hk']
      · simp [lookup_cons_pair, hpk, hk', ih]
    · have hkp : ¬ k = p.1 := fun h => hpk h.symm
      by_cases hk'p : k' = p.1
      · have hk' : ¬ k' = k := fun h => hpk (hk'p.symm.trans h)
        simp [lookup_cons_pair, hpk, hk'p, hk']
      · by_cases hk' : k' = k
        · subst hk'
          simp only [if_neg hpk, lookup_cons_pair, if_neg hkp, eq_self_iff_true,
            if_true, ih]
        · simp [lookup_cons_pair, hpk, hkp, hk'p, hk', ih]

/-- `lookup` after a dict assignment: the assigned key reads back the new
value, every other key is unaffected. -/
theorem lookup_insertD {β : Type} (t : List (String × β)) (k k' : String) (v : β) :
    (insertD t k v).lookup k' = if k' = k then some v else t.lookup k' := by
  unfold insertD
  by_cases hc : (t.lookup k).isSome
  · rw [if_pos hc, lookup_map_update]
    by_cases h : k' = k <;> simp [h, hc]
  · rw [if_neg hc, List.lookup_append]
    by_cases h : k' = k
    · subst h
      rcases ho : t.lookup k' with _ | w
      · simp [lookup_cons_pair]
      · exact absurd (by rw [ho]; rfl) hc
    · rcases ho : t.lookup k' with _ | w <;>
        simp [Option.or, lookup_cons_pair, h]

/-- Every pair of a dict after an assignment is an old pair or carries the
assigned value. -/
theorem mem_insertD {β : Type} {t : List (String × β)} {k : String} {v : β}
    {p : String × β} (h : p ∈ insertD t k v) : p ∈ t ∨ p.2 = v := by
  unfold insertD at h
  by_cases hc : (t.lookup k).isSome
  · rw [if_pos hc] at h
    rcases List.mem_map.mp h with ⟨q, hq, hqe⟩
    by_cases hq1 : q.1 = k
    · right
      rw [if_pos hq1] at hqe
      rw [← hqe]
    · left
      rw [if_neg hq1] at hqe
      exact hqe ▸ hq
  · rw [if_neg hc] at h
    rcases List.mem_append.mp h with h1 | h1
    · exact Or.inl h1
    · right
      rcases List.mem_singleton.mp h1 with rfl
      rfl

/-- A key/value pair found by `lookup` is a member of the association list. -/
theorem mem_of_lookup_eq_some {α β : Type} [BEq α] [LawfulBEq α] [DecidableEq α]
    {t : List (α × β)} {k : α} {v : β}
    (h : t.lookup k = some v) : (k, v) ∈ t := by
  induction t with
  | nil => simp at h
  | cons p rest ih =>
    rw [lookup_cons_pair] at h
    by_cases hk : k = p.1
    · rw [if_pos hk] at h
      cases h
      rw [hk]
      exact List.mem_cons_self _ _
    · rw [if_neg hk] at h
      exact List.mem_cons_of_mem _ (ih h)

/-- With duplicate-free keys, membership determines the `lookup` result. -/
theorem lookup_eq_some_of_mem {α β : Type} [BEq α] [LawfulBEq α] [DecidableEq α]
    {t : List (α × β)} {k : α} {v : β}
    (hnd : (t.map Prod.fst).Nodup) (h : (k, v) ∈ t) : t.lookup k = some v := by
  induction t with
  | nil => cases h
  | cons p rest ih =>
    simp only [List.map_cons, List.nodup_cons] at hnd
    rw [lookup_cons_pair]
    rcases List.mem_cons.mp h with rfl | hmem
    · simp
    · have hk : ¬ k = p.1 := by
        intro hkp
        exact hnd.1 (hkp ▸ (List.mem_map.mpr ⟨(k, v), hmem, rfl⟩))
      rw [if_neg hk]
      exact ih hnd.2 hmem

theorem roundHalfEven_nonneg {q : ℚ} (hq : 0 ≤ q) : 0 ≤ roundHalfEven q := by
  have hf : (0 : ℤ) ≤ ⌊q⌋ := Int.floor_nonneg.mpr hq
  unfold roundHalfEven
  dsimp only
  split
  · exact hf
  · split
    · omega
    · split
      · exact hf
      · omega

theorem roundDec_nonneg {d : ℕ} {q : ℚ} (hq : 0 ≤ q) : 0 ≤ roundDec d q := by
  unfold roundDec
  apply div_nonneg _ (by positivity)
  exact_mod_cast roundHalfEven_nonneg (by positivity)

theorem hypTailQ_nonneg (a b c d : ℕ) : 0 ≤ hypTailQ a b c d := by
  unfold hypTailQ
  apply div_nonneg <;> positivity

theorem hypTailQ_le_one (a b c d : ℕ) : hypTailQ a b c d ≤ 1 := by
  unfold hypTailQ
  have hpos : (0 : ℚ) < ((a + b + c + d).choose (a + c) : ℚ) := by
    exact_mod_cast Nat.choose_pos (by omega)
  rw [div_le_one hpos]
  have hsum : (∑ x ∈ Finset.Ico a (a + c + 1),
      (a + b).choose x * (c + d).choose (a + c - x)) ≤
      ∑ x ∈ Finset.range (a + c + 1), (a + b).choose x * (c + d).choose (a + c - x) := by
    apply Finset.sum_le_sum_of_subset
    intro x hx
    rw [Finset.mem_range]
    exact (Finset.mem_Ico.mp hx).2
  have hvan : (∑ x ∈ Finset.range (a + c + 1),
      (a + b).choose x * (c + d).choose (a + c - x)) = ((a + b) + (c + d)).choose (a + c) := by
    rw [Nat.add_choose_eq, Finset.Nat.sum_antidiagonal_eq_sum_range_succ
      (fun i j => (a + b).choose i * (c + d).choose j)]
  have hle : (∑ x ∈ Finset.Ico a (a + c + 1),
      (a + b).choose x * (c + d).choose (a + c - x)) ≤ (a + b + c + d).choose (a + c) := by
    calc (∑ x ∈ Finset.Ico a (a + c + 1), (a + b).choose x * (c + d).choose (a + c - x))
        ≤ ∑ x ∈ Finset.range (a + c + 1), (a + b).choose x * (c + d).choose (a + c - x) := hsum
      _ = ((a + b) + (c + d)).choose (a + c) := hvan
      _ = (a + b + c + d).choose (a + c) := by ring_nf
  exact_mod_cast hle

/-- Any p-value produced by the embedded `fisher_exact` lies in `[0, 1]`. -/
theorem fisherExact_pvalue_mem {a b c d : ℤ} {o : OddsVal} {p : ℚ}
    (h : fisherExact a b c d = some (o, p)) : 0 ≤ p ∧ p ≤ 1 := by
  unfold fisherExact at h
  split at h
  · cases h
  · dsimp only at h
    split at h
    · cases h
      exact ⟨zero_le_one, le_refl 1⟩
    · cases h
      exact ⟨hypTailQ_nonneg _ _ _ _, hypTailQ_le_one _ _ _ _⟩

theorem suffMin_map_fst (l : List (ℕ × ℚ)) :
    (suffMin l).map Prod.fst = l.map Prod.fst := by
  induction l with
  | nil => rfl
  | cons p rest ih =>
    rcases p with ⟨i, r⟩
    simp [suffMin, ih]

theorem suffMin_length (l : List (ℕ × ℚ)) : (suffMin l).length = l.length := by
  have := congrArg List.length (suffMin_map_fst l)
  simpa using this

theorem suffMin_drop (l : List (ℕ × ℚ)) (j : ℕ) :
    (suffMin l).drop j = suffMin (l.drop j) := by
  induction l generalizing j with
  | nil => simp [suffMin]
  | cons p rest ih =>
    rcases p with ⟨i, r⟩
    cases j with
    | zero => simp
    | succ j' => simpa [suffMin] using ih j'

theorem suffMin_lb {l : List (ℕ × ℚ)} {b : ℚ} (h : ∀ p ∈ l, b ≤ p.2) :
    ∀ p ∈ suffMin l, b ≤ p.2 := by
  induction l with
  | nil => intro p hp; cases hp
  | cons x rest ih =>
    rcases x with ⟨i, r⟩
    intro p hp
    have hr : b ≤ r := h (i, r) (List.mem_cons_self _ _)
    have hrest : ∀ p ∈ rest, b ≤ p.2 := fun q hq => h q (List.mem_cons_of_mem _ hq)
    simp only [suffMin] at hp
    rcases List.mem_cons.mp hp with rfl | hmem
    · rcases hh : (suffMin rest).head? with _ | q
      · simpa [hh] using hr
      · have hq : q ∈ suffMin rest := List.mem_of_mem_head? hh
        have := ih hrest q hq
        simp only [hh]
        exact le_min hr this
    · exact ih hrest p hmem

theorem bhAdjust_length (ps : List ℚ) : (bhAdjust ps).length = ps.length := by
  simp [bhAdjust]

theorem suffMin_get_fst (l : List (ℕ × ℚ)) (j : ℕ) (h : j < l.length)
    (h2 : j < (suffMin l).length) :
    ((suffMin l).get ⟨j, h2⟩).1 = (l.get ⟨j, h⟩).1 := by
  induction l generalizing j with
  | nil => cases h
  | cons p rest ih =>
    rcases p with ⟨i, r⟩
    cases j with
    | zero => rfl
    | succ j' =>
      have h' : j' < rest.length := by simpa using h
      have h2' : j' < (suffMin rest).length := by rw [suffMin_length]; exact h'
      exact ih j' h' h2'

theorem bhSorted_perm (ps : List ℚ) : List.Perm (bhSorted ps) ps.enum :=
  List.perm_insertionSort _ _

theorem bhSorted_length (ps : List ℚ) : (bhSorted ps).length = ps.length := by
  rw [(bhSorted_perm ps).length_eq, List.enum_length]

theorem bhSorted_pairwise (ps : List ℚ) :
    (bhSorted ps).Pairwise (fun x y : ℕ × ℚ => x.2 ≤ y.2) :=
  (List.sorted_insertionSort bhLe ps.enum).imp (fun h => h)

theorem bhSorted_snd_mem (ps : List ℚ) {q : ℕ × ℚ} (hq : q ∈ bhSorted ps) :
    q.2 ∈ ps := by
  have h1 : q ∈ ps.enum := (bhSorted_perm ps).mem_iff.mp hq
  have h2 : q.2 ∈ ps.enum.map Prod.snd := List.mem_map.mpr ⟨q, h1, rfl⟩
  simpa [List.enum_map_snd] using h2

theorem bhRaws_length (ps : List ℚ) : (bhRaws ps).length = ps.length := by
  simp [bhRaws, bhSorted_length]

theorem bhRaws_get (ps : List ℚ) (l : ℕ) (hl : l < (bhRaws ps).length)
    (hl2 : l < (bhSorted ps).length) :
    (bhRaws ps).get ⟨l, hl⟩ =
      (((bhSorted ps).get ⟨l, hl2⟩).1,
        (ps.length : ℚ) / (l + 1) * ((bhSorted ps).get ⟨l, hl2⟩).2) := by
  simp [bhRaws, List.get_eq_getElem, List.getElem_enum]

/-- The heart of claim C9: the Benjamini–Hochberg adjusted value at every
position dominates the raw p-value at that position, provided all inputs lie
in `[0, 1]`. -/
theorem le_bhAdjust (ps : List ℚ) (h01 : ∀ p ∈ ps, 0 ≤ p ∧ p ≤ 1)
    (i : ℕ) (hi : i < ps.length) (hi2 : i < (bhAdjust ps).length) :
    ps.get ⟨i, hi⟩ ≤ (bhAdjust ps).get ⟨i, hi2⟩ := by
  classical
  -- the pair (i, ps[i]) sits at some position j of the sorted list
  have hienum : (i, ps.get ⟨i, hi⟩) ∈ ps.enum := by
    have hbound : i < ps.enum.length := by simpa using hi
    have h1 : ps.enum.get ⟨i, hbound⟩ = (i, ps.get ⟨i, hi⟩) := by
      simp [List.get_eq_getElem, List.getElem_enum]
    rw [← h1]
    exact List.get_mem _ _ _
  have hisorted : (i, ps.get ⟨i, hi⟩) ∈ bhSorted ps :=
    (bhSorted_perm ps).mem_iff.mpr hienum
  obtain ⟨⟨j, hj⟩, hsj⟩ := List.mem_iff_get.mp hisorted
  have hjm : j < ps.length := bhSorted_length ps ▸ hj
  have hjraws : j < (bhRaws ps).length := by rw [bhRaws_length]; exact hjm
  -- every raw corrected value from position j onwards dominates ps[i]
  have hkey : ∀ p ∈ (bhRaws ps).drop j, ps.get ⟨i, hi⟩ ≤ p.2 := by
    intro p hp
    obtain ⟨⟨t, ht⟩, hpt⟩ := List.mem_iff_get.mp hp
    have htlen : j + t < (bhRaws ps).length := by
      have := ht
      simp only [List.length_drop] at this
      omega
    have hdrop : ((bhRaws ps).drop j).get ⟨t, ht⟩ = (bhRaws ps).get ⟨j + t, htlen⟩ := by
      simp [List.get_eq_getElem, List.getElem_drop]
    have hjts : j + t < (bhSorted ps).length := by
      rw [bhSorted_length]
      rw [bhRaws_length] at htlen
      exact htlen
    have hsget := bhRaws_get ps (j + t) htlen hjts
    have h1 : ((bhSorted ps).get ⟨j, hj⟩).2 ≤ ((bhSorted ps).get ⟨j + t, hjts⟩).2 := by
      rcases Nat.eq_zero_or_pos t with rfl | htpos
      · exact le_of_eq (by congr 1)
      · have hlt : j < j + t := by omega
        have := (List.pairwise_iff_getElem.mp (bhSorted_pairwise ps)) j (j + t) hj hjts hlt
        simpa [List.get_eq_getElem] using this
    have h2 : 0 ≤ ((bhSorted ps).get ⟨j + t, hjts⟩).2 :=
      (h01 _ (bhSorted_snd_mem ps (List.get_mem _ _ _))).1
    have h3 : 1 ≤ (ps.length : ℚ) / ((j + t : ℕ) + 1 : ℚ) := by
      rw [le_div_iff₀ (by positivity)]
      have hle : j + t + 1 ≤ ps.length := by
        rw [bhRaws_length] at htlen
        omega
      have hle2 : ((j + t : ℕ) : ℚ) + 1 ≤ (ps.length : ℚ) := by exact_mod_cast hle
      linarith
    calc ps.get ⟨i, hi⟩ = ((bhSorted ps).get ⟨j, hj⟩).2 := by rw [hsj]
      _ ≤ ((bhSorted ps).get ⟨j + t, hjts⟩).2 := h1
      _ = 1 * ((bhSorted ps).get ⟨j + t, hjts⟩).2 := (one_mul _).symm
      _ ≤ (ps.length : ℚ) / ((j + t : ℕ) + 1 : ℚ) * ((bhSorted ps).get ⟨j + t, hjts⟩).2 :=
          mul_le_mul_of_nonneg_right h3 h2
      _ = ((bhRaws ps).get ⟨j + t, htlen⟩).2 := by rw [hsget]
      _ = p.2 := by rw [← hpt, hdrop]
  -- the suffix minimum at position j therefore dominates ps[i]
  have hjc : j < (suffMin (bhRaws ps)).length := by
    rw [suffMin_length]
    exact hjraws
  have hcorr : ps.get ⟨i, hi⟩ ≤ ((suffMin (bhRaws ps)).get ⟨j, hjc⟩).2 := by
    have h0len : 0 < ((suffMin (bhRaws ps)).drop j).length := by
      simp only [List.length_drop, suffMin_length]
      omega
    have hd : (suffMin (bhRaws ps)).get ⟨j, hjc⟩ =
        ((suffMin (bhRaws ps)).drop j).get ⟨0, h0len⟩ := by
      simp [List.get_eq_getElem, List.getElem_drop]
    have hmem0 : ((suffMin (bhRaws ps)).drop j).get ⟨0, h0len⟩ ∈ suffMin ((bhRaws ps).drop j) := by
      have he := suffMin_drop (bhRaws ps) j
      rw [← he]
      exact List.get_mem _ _ _
    rw [hd]
    exact suffMin_lb hkey _ hmem0
  -- the original index at that position is i
  have hfst : ((suffMin (bhRaws ps)).get ⟨j, hjc⟩).1 = i := by
    have e1 := suffMin_get_fst (bhRaws ps) j hjraws hjc
    have e2 := bhRaws_get ps j hjraws hj
    rw [e1, e2, hsj]
  -- keys of the clipped list are pairwise distinct
  have hnd : ((bhClipped ps).map Prod.fst).Nodup := by
    have e0 : (bhClipped ps).map Prod.fst = (suffMin (bhRaws ps)).map Prod.fst := by
      simp [bhClipped, List.map_map]
    have e1 : (suffMin (bhRaws ps)).map Prod.fst = (bhRaws ps).map Prod.fst :=
      suffMin_map_fst _
    have e2 : (bhRaws ps).map Prod.fst = (bhSorted ps).map Prod.fst := by
      unfold bhRaws
      rw [List.map_map]
      conv_rhs => rw [← List.enum_map_snd (bhSorted ps), List.map_map]
      rfl
    have hpm : List.Perm ((bhSorted ps).map Prod.fst) (ps.enum.map Prod.fst) :=
      (bhSorted_perm ps).map _
    have hr : (ps.enum.map Prod.fst).Nodup := by
      rw [List.enum_map_fst]
      exact List.nodup_range _
    rw [e0, e1, e2]
    exact hpm.nodup_iff.mpr hr
  -- lookup therefore returns the value at position j
  have hjcl : j < (bhClipped ps).length := by
    simp only [bhClipped, List.length_map]
    exact hjc
  have hcg : (bhClipped ps).get ⟨j, hjcl⟩ =
      (i, min ((suffMin (bhRaws ps)).get ⟨j, hjc⟩).2 1) := by
    simp only [bhClipped, List.get_eq_getElem, List.getElem_map]
    rw [Prod.ext_iff]
    constructor
    · simpa [List.get_eq_getElem] using hfst
    · rfl
  have hlook : (bhClipped ps).lookup i =
      some (min ((suffMin (bhRaws ps)).get ⟨j, hjc⟩).2 1) := by
    apply lookup_eq_some_of_mem hnd
    rw [← hcg]
    exact List.get_mem _ _ _
  -- assemble
  have hfin : (bhAdjust ps).get ⟨i, hi2⟩ =
      ((bhClipped ps).lookup i).getD 0 := by
    simp [bhAdjust, List.get_eq_getElem, List.getElem_map]
  rw [hfin, hlook]
  exact le_min hcorr (h01 _ (List.get_mem _ _ _)).2

theorem lookup_isSome_of_mem {β : Type} {t : List (String × β)} {p : String × β}
    (h : p ∈ t) : (t.lookup p.1).isSome := by
  rw [List.lookup_isSome_iff]
  exact ⟨p, h, by simp⟩

theorem foldl_value_prop {α : Type} (P : String → Prop)
    {step : List (String × String) → α → List (String × String)} :
    ∀ (gs : List α) (acc : List (String × String)),
      (∀ acc' x, x ∈ gs → ∀ p, p ∈ step acc' x → p ∈ acc' ∨ P p.2) →
      (∀ p ∈ acc, P p.2) → ∀ p ∈ gs.foldl step acc, P p.2 := by
  intro gs
  induction gs with
  | nil => intro acc _ hacc p hp; exact hacc p hp
  | cons x rest ih =>
    intro acc hstep hacc p hp
    refine ih (step acc x) (fun acc' y hy => hstep acc' y (List.mem_cons_of_mem _ hy)) ?_ p hp
    intro q hq
    rcases hstep acc x (List.mem_cons_self _ _) q hq with h | h
    · exact hacc q h
    · exact h

theorem lowerTableOf_values (kg : List (String × String)) :
    ∀ p ∈ lowerTableOf kg, (kg.lookup p.2).isSome := by
  unfold lowerTableOf
  apply foldl_value_prop (fun x => (kg.lookup x).isSome) kg []
    ?_ (by intro p hp; cases hp)
  intro acc x hx p hp
  rcases mem_insertD hp with h | h
  · exact Or.inl h
  · right
    rw [h]
    exact lookup_isSome_of_mem hx

theorem symTableOf_values (kg : List (String × String)) :
    ∀ p ∈ symTableOf kg, (kg.lookup p.2).isSome := by
  unfold symTableOf
  apply foldl_value_prop (fun x => (kg.lookup x).isSome) kg []
    ?_ (by intro p hp; cases hp)
  intro acc x hx p hp
  rcases hsk : symKeyOf x.2 with _ | s
  · rw [hsk] at hp
    exact Or.inl hp
  · rw [hsk] at hp
    rcases mem_insertD hp with h | h
    · exact Or.inl h
    · right
      rw [h]
      exact lookup_isSome_of_mem hx

theorem prodTableOf_values (kg : List (String × String)) :
    ∀ p ∈ prodTableOf kg, (kg.lookup p.2).isSome := by
  unfold prodTableOf
  apply foldl_value_prop (fun x => (kg.lookup x).isSome) kg []
    ?_ (by intro p hp; cases hp)
  intro acc x hx p hp
  rcases hsk : prodKeyOf x.2 with _ | s
  · rw [hsk] at hp
    exact Or.inl hp
  · rw [hsk] at hp
    rcases mem_insertD hp with h | h
    · exact Or.inl h
    · right
      rw [h]
      exact lookup_isSome_of_mem hx

/-- Inversion for the cascade: a successful resolution came from one of the
five strategies. -/
theorem strategyResult_cases {kg lowerT symT prodT gm pm : List (String × String)}
    {s v : String}
    (h : strategyResult kg lowerT symT prodT gm pm s = some v) :
    (v = s ∧ (kg.lookup s).isSome)
    ∨ lowerT.lookup (pyLower s) = some v
    ∨ (∃ nm, gm.lookup s = some nm ∧ symT.lookup (pyLower nm) = some v)
    ∨ symT.lookup (pyLower s) = some v
    ∨ (∃ e, e ∈ prodT ∧ e.2 = v) := by
  unfold strategyResult at h
  split at h
  case isTrue h0 =>
    cases h
    exact Or.inl ⟨rfl, h0⟩
  case isFalse h0 =>
    split at h
    case h_1 k heq =>
      cases h
      exact Or.inr (Or.inl heq)
    case h_2 heq2 =>
      split at h
      case h_1 k heq3 =>
        cases h
        split at heq3
        case h_1 nm heq6 =>
          split at heq3
          case isTrue hnm =>
            exact Or.inr (Or.inr (Or.inl ⟨nm, heq6, heq3⟩))
          case isFalse hnm =>
            cases heq3
        case h_2 heq6 =>
          cases heq3
      case h_2 heq3 =>
        split at h
        case h_1 k heq4 =>
          cases h
          exact Or.inr (Or.inr (Or.inr (Or.inl heq4)))
        case h_2 heq4 =>
          split at h
          case h_1 prod heq5 =>
            split at h
            case isTrue hprod =>
              dsimp only at h
              split at h
              case isTrue hlen =>
                rcases h7 : prodT.find? (fun e =>
                    pyLower (pyStrip prod) == e.1 ||
                      (decide (15 < (pyLower (pyStrip prod)).length) &&
                        containsSub e.1 (pyLower (pyStrip prod)))) with _ | e
                · rw [h7] at h
                  cases h
                · rw [h7] at h
                  cases h
                  exact Or.inr (Or.inr (Or.inr (Or.inr
                    ⟨e, List.mem_of_find?_eq_some h7, rfl⟩)))
              case isFalse hlen =>
                cases h
            case isFalse hprod =>
              cases h
          case h_2 heq5 =>
            cases h

/-- Every id the cascade returns (with the tables built from `kegg_genes`) is
a key of the reference dictionary. -/
theorem strategyResult_isSome_kegg {kg gm pm : List (String × String)} {s v : String}
    (h : strategyResult kg (lowerTableOf kg) (symTableOf kg) (prodTableOf kg) gm pm s =
      some v) : (kg.lookup v).isSome := by
  rcases strategyResult_cases h with ⟨rfl, h0⟩ | h1 | ⟨nm, _, h3⟩ | h4 | ⟨e, he, rfl⟩
  · exact h0
  · exact lowerTableOf_values kg _ (mem_of_lookup_eq_some h1)
  · exact symTableOf_values kg _ (mem_of_lookup_eq_some h3)
  · exact symTableOf_values kg _ (mem_of_lookup_eq_some h4)
  · exact prodTableOf_values kg _ he

theorem build_kegg_id_mapping_eq_foldl (input_gene_ids : List (Option String))
    (kegg_genes : List (String × String)) (org_code : String)
    (gene_name_map product_map : List (String × String)) :
    build_kegg_id_mapping input_gene_ids kegg_genes org_code gene_name_map product_map =
      input_gene_ids.foldl
        (resolverStep kegg_genes (lowerTableOf kegg_genes) (symTableOf kegg_genes)
          (prodTableOf kegg_genes) gene_name_map product_map)
        [] := rfl

theorem resolver_foldl_lookup_none {kg lowerT symT prodT gm pm : List (String × String)}
    {s : String}
    (hs : strategyResult kg lowerT symT prodT gm pm s = none) :
    ∀ (ids : List (Option String)) (acc : List (String × String)),
      acc.lookup s = none →
      (ids.foldl (resolverStep kg lowerT symT prodT gm pm) acc).lookup s = none := by
  intro ids
  induction ids with
  | nil => intro acc hacc; exact hacc
  | cons g rest ih =>
    intro acc hacc
    rcases g with _ | g0
    · exact ih acc hacc
    · simp only [List.foldl_cons, resolverStep]
      rcases hstrat : strategyResult kg lowerT symT prodT gm pm (pyStrip g0) with _ | v
      · exact ih acc hacc
      · apply ih
        rw [lookup_insertD]
        split
        case isTrue heq =>
          rw [heq] at hs
          rw [hs] at hstrat
          cases hstrat
        case isFalse heq =>
          exact hacc

theorem resolver_foldl_lookup_pres {kg lowerT symT prodT gm pm : List (String × String)}
    {s v : String}
    (hs : strategyResult kg lowerT symT prodT gm pm s = some v) :
    ∀ (ids : List (Option String)) (acc : List (String × String)),
      acc.lookup s = some v →
      (ids.foldl (resolverStep kg lowerT symT prodT gm pm) acc).lookup s = some v := by
  intro ids
  induction ids with
  | nil => intro acc hacc; exact hacc
  | cons g rest ih =>
    intro acc hacc
    rcases g with _ | g0
    · exact ih acc hacc
    · simp only [List.foldl_cons, resolverStep]
      rcases hstrat : strategyResult kg lowerT symT prodT gm pm (pyStrip g0) with _ | w
      · exact ih acc hacc
      · apply ih
        rw [lookup_insertD]
        split
        case isTrue heq =>
          rw [heq] at hs
          rw [hs] at hstrat
          cases hstrat
          rfl
        case isFalse heq =>
          exact hacc

theorem resolver_foldl_lookup_set {kg lowerT symT prodT gm pm : List (String × String)}
    {s v : String}
    (hs : strategyResult kg lowerT symT prodT gm pm s = some v) :
    ∀ (ids : List (Option String)) (acc : List (String × String)),
      (∃ g0, some g0 ∈ ids ∧ pyStrip g0 = s) →
      (ids.foldl (resolverStep kg lowerT symT prodT gm pm) acc).lookup s = some v := by
  intro ids
  induction ids with
  | nil =>
    rintro acc ⟨g0, hg0, _⟩
    cases hg0
  | cons g rest ih =>
    rintro acc ⟨g0, hg0, htrim⟩
    rcases List.mem_cons.mp hg0 with heq | hmem
    · cases heq
      simp only [List.foldl_cons, resolverStep, htrim, hs]
      apply resolver_foldl_lookup_pres hs
      rw [lookup_insertD, if_pos rfl]
    · rcases g with _ | g1
      · exact ih _ ⟨g0, hmem, htrim⟩
      · exact ih _ ⟨g0, hmem, htrim⟩

theorem getLast?_cons_or {α : Type} (a : α) (l : List α) :
    (a :: l).getLast? = (l.getLast?).or (some a) := by
  cases l with
  | nil => rfl
  | cons b t =>
    rw [List.getLast?_cons_cons]
    rcases h : (b :: t).getLast? with _ | w
    · exact absurd h (by simp [List.getLast?_cons])
    · rfl

theorem symTable_foldl_lookup (sym : String) :
    ∀ (kg t : List (String × String)),
      ((kg.foldl
        (fun t p =>
          match symKeyOf p.2 with
          | some s => insertD t s p.1
          | none => t)
        t).lookup sym) =
      ((lastSymCandidate kg sym).or (t.lookup sym)) := by
  intro kg
  induction kg with
  | nil =>
    intro t
    simp [lastSymCandidate]
  | cons p rest ih =>
    intro t
    rw [List.foldl_cons]
    rcases hk : symKeyOf p.2 with _ | s1
    · dsimp only
      have hlc : lastSymCandidate (p :: rest) sym = lastSymCandidate rest sym := by
        unfold lastSymCandidate
        rw [List.filter_cons]
        simp [hk]
      rw [hlc]
      exact ih t
    · by_cases hss : sym = s1
      · subst hss
        dsimp only
        have hlc : lastSymCandidate (p :: rest) sym =
            (lastSymCandidate rest sym).or (some p.1) := by
          unfold lastSymCandidate
          rw [List.filter_cons]
          simp only [hk, Option.some.injEq, decide_eq_true_eq, if_true, eq_self_iff_true,
            decide_True]
          rw [getLast?_cons_or, Option.map_or']
          rfl
        rw [ih (insertD t sym p.1), hlc, Option.or_assoc, lookup_insertD, if_pos rfl]
        simp
      · dsimp only
        have hs1 : ¬ (s1 = sym) := fun h => hss h.symm
        have hlc : lastSymCandidate (p :: rest) sym = lastSymCandidate rest sym := by
          unfold lastSymCandidate
          rw [List.filter_cons]
          simp [hk, hs1]
        rw [ih (insertD t s1 p.1), hlc, lookup_insertD, if_neg hss]

/-- The source's symbol lookup table resolves a symbol to the
last-encountered reference gene carrying it. -/
theorem symTableOf_lookup (kg : List (String × String)) (sym : String) :
    (symTableOf kg).lookup sym = lastSymCandidate kg sym := by
  unfold symTableOf
  rw [symTable_foldl_lookup sym kg []]
  rcases h : lastSymCandidate kg sym with _ | w <;> rfl

/-- Inversion for a COG base row: its statistical fields are exactly the
Fisher output for the contingency data stored in the row itself. -/
theorem cogBase_mem_inv {de all : List String} {cm : List (String × List String)}
    {mc : ℕ} {r : CogRecord} (h : r ∈ cogBase de all cm mc) :
    ∃ op : OddsVal × ℚ,
      fisherOf r.DE_Count r.DE_Total r.Background_Count r.Background_Total = some op ∧
      r.pvalue = op.2 ∧ r.OddsRatio = cogClampOdds op.1 ∧
      r.Fold_Enrichment =
        (if 0 < r.Background_Count ∧ 0 < r.DE_Total ∧ 0 < r.Background_Total then
          roundDec 4 (((r.DE_Count : ℚ) / r.DE_Total) /
            ((r.Background_Count : ℚ) / r.Background_Total))
        else 0) ∧
      r.DE_Total = (dedupStr de).length ∧
      r.Background_Total = (dedupStr all).length ∧
      r.DE_Count = countCat (dedupStr de) cm r.COG_Category ∧
      r.Background_Count = countCat (dedupStr all) cm r.COG_Category := by
  unfold cogBase at h
  obtain ⟨cat, hcat, heq⟩ := List.mem_filterMap.mp h
  dsimp only at heq
  split at heq
  · cases heq
  · split at heq
    case h_1 => cases heq
    case h_2 op hop =>
      cases heq
      exact ⟨op, hop, rfl, rfl, rfl, rfl, rfl, rfl, rfl⟩

theorem cogBase_pvalue_mem {de all : List String} {cm : List (String × List String)}
    {mc : ℕ} {r : CogRecord} (h : r ∈ cogBase de all cm mc) :
    0 ≤ r.pvalue ∧ r.pvalue ≤ 1 := by
  obtain ⟨op, hop, hpv, _⟩ := cogBase_mem_inv h
  rw [hpv]
  exact fisherExact_pvalue_mem hop

theorem keggOraBase_pvalue_mem {de all : List String}
    {links : List (String × List String)} {pws : List (String × String)}
    {im : Option (List (String × String))} {mins maxs : ℕ} {r : KeggOraRecord}
    (h : r ∈ keggOraBase de all links pws im mins maxs) :
    0 ≤ r.pvalue ∧ r.pvalue ≤ 1 := by
  unfold keggOraBase at h
  obtain ⟨pg, hpg, heq⟩ := List.mem_filterMap.mp h
  dsimp only at heq
  split at heq
  · cases heq
  · split at heq
    · cases heq
    · split at heq
      case h_1 => cases heq
      case h_2 op hop =>
        cases heq
        exact fisherExact_pvalue_mem hop

/-- Generic inversion for the "attach BH column" step shared by both ORA
engines: a row of `zip(base, bhAdjust(pvalues)) |> update` is an updated base
row whose attached value dominates its p-value. -/
theorem attach_bh_mem_inv {R : Type} (B : List R) (pv : R → ℚ) (upd : R → ℚ → R)
    {r : R} (h : r ∈ (B.zip (bhAdjust (B.map pv))).map (fun rq => upd rq.1 rq.2))
    (h01 : ∀ r0 ∈ B, 0 ≤ pv r0 ∧ pv r0 ≤ 1) :
    ∃ (r0 : R) (q : ℚ), r0 ∈ B ∧ r = upd r0 q ∧ pv r0 ≤ q := by
  obtain ⟨rq, hrq, hmapeq⟩ := List.mem_map.mp h
  obtain ⟨⟨i, hi⟩, hget⟩ := List.mem_iff_get.mp hrq
  have hib : i < B.length := by
    rw [List.length_zip] at hi
    omega
  have hiq : i < (bhAdjust (B.map pv)).length := by
    rw [List.length_zip] at hi
    omega
  have hips : i < (B.map pv).length := by
    rw [List.length_map]
    exact hib
  have hzip : (B.zip (bhAdjust (B.map pv))).get ⟨i, hi⟩ =
      (B.get ⟨i, hib⟩, (bhAdjust (B.map pv)).get ⟨i, hiq⟩) := by
    simp [List.get_eq_getElem, List.getElem_zip]
  refine ⟨B.get ⟨i, hib⟩, (bhAdjust (B.map pv)).get ⟨i, hiq⟩, List.get_mem _ _ _, ?_, ?_⟩
  · rw [← hmapeq, ← hget, hzip]
  · have h01m : ∀ p ∈ B.map pv, 0 ≤ p ∧ p ≤ 1 := by
      intro p hp
      obtain ⟨r0, hr0, rfl⟩ := List.mem_map.mp hp
      exact h01 r0 hr0
    have hle := le_bhAdjust _ h01m i hips hiq
    simpa [List.get_eq_getElem, List.getElem_map] using hle

/-- Inversion for a final `run_cog_enrichment` row: it is a base row with a
BH-corrected `p.adjust` that dominates its p-value. -/
theorem mem_run_cog_enrichment_inv {de all : List String}
    {cm : List (String × List String)} {mc : ℕ} {r : CogRecord}
    (h : r ∈ run_cog_enrichment de all cm mc) :
    ∃ (r0 : CogRecord) (q : ℚ), r0 ∈ cogBase de all cm mc ∧
      r = { r0 with p_adjust := q } ∧ r0.pvalue ≤ q := by
  unfold run_cog_enrichment at h
  dsimp only at h
  split at h
  · cases h
  · have hmem := (List.perm_insertionSort _ _).mem_iff.mp h
    exact attach_bh_mem_inv _ (fun r => r.pvalue) (fun r0 q => { r0 with p_adjust := q })
      hmem (fun r0 hr0 => cogBase_pvalue_mem hr0)

/-- Inversion for a final `run_kegg_ora` row. -/
theorem mem_run_kegg_ora_inv {de all : List String}
    {links : List (String × List String)} {pws : List (String × String)}
    {im : Option (List (String × String))} {mins maxs : ℕ} {r : KeggOraRecord}
    (h : r ∈ run_kegg_ora de all links pws im mins maxs) :
    ∃ (r0 : KeggOraRecord) (q : ℚ), r0 ∈ keggOraBase de all links pws im mins maxs ∧
      r = { r0 with p_adjust := q } ∧ r0.pvalue ≤ q := by
  unfold run_kegg_ora at h
  dsimp only at h
  split at h
  · cases h
  · have hmem := (List.perm_insertionSort _ _).mem_iff.mp h
    exact attach_bh_mem_inv _ (fun r => r.pvalue) (fun r0 q => { r0 with p_adjust := q })
      hmem (fun r0 hr0 => keggOraBase_pvalue_mem hr0)

theorem dedupFirstGo_lookup : ∀ (l : List (String × ℚ)) (seen : List String)
    (g : String), g ∉ seen → (dedupFirstGo seen l).lookup g = l.lookup g := by
  intro l
  induction l with
  | nil => intro seen g _; rfl
  | cons x t ih =>
    intro seen g hg
    by_cases hx : x.1 ∈ seen
    · rw [show dedupFirstGo seen (x :: t) = dedupFirstGo seen t by
        simp [dedupFirstGo, hx]]
      rw [ih seen g hg, lookup_cons_pair, if_neg (fun h => hg (by rw [h]; exact hx))]
    · rw [show dedupFirstGo seen (x :: t) = x :: dedupFirstGo (x.1 :: seen) t by
        simp [dedupFirstGo, hx]]
      rw [lookup_cons_pair, lookup_cons_pair]
      by_cases hgx : g = x.1
      · rw [if_pos hgx, if_pos hgx]
      · rw [if_neg hgx, if_neg hgx]
        exact ih (x.1 :: seen) g (by
          intro hmem
          rcases List.mem_cons.mp hmem with h | h
          · exact hgx h
          · exact hg h)

theorem dedupFirst_lookup (l : List (String × ℚ)) (g : String) :
    (dedupFirst l).lookup g = l.lookup g :=
  dedupFirstGo_lookup l [] g (List.not_mem_nil g)

theorem dedupFirstGo_sublist : ∀ (l : List (String × ℚ)) (seen : List String),
    (dedupFirstGo seen l).Sublist l := by
  intro l
  induction l with
  | nil => intro seen; exact List.Sublist.refl _
  | cons x t ih =>
    intro seen
    by_cases hx : x.1 ∈ seen
    · rw [show dedupFirstGo seen (x :: t) = dedupFirstGo seen t by
        simp [dedupFirstGo, hx]]
      exact (ih seen).cons x
    · rw [show dedupFirstGo seen (x :: t) = x :: dedupFirstGo (x.1 :: seen) t by
        simp [dedupFirstGo, hx]]
      exact (ih (x.1 :: seen)).cons₂ x

theorem dedupFirst_sublist (l : List (String × ℚ)) : (dedupFirst l).Sublist l :=
  dedupFirstGo_sublist l []

theorem dedupFirstGo_keys : ∀ (l : List (String × ℚ)) (seen : List String),
    ((dedupFirstGo seen l).map Prod.fst).Nodup ∧
    ∀ k ∈ (dedupFirstGo seen l).map Prod.fst, k ∉ seen := by
  intro l
  induction l with
  | nil => intro seen; exact ⟨List.nodup_nil, by intro k hk; cases hk⟩
  | cons x t ih =>
    intro seen
    by_cases hx : x.1 ∈ seen
    · rw [show dedupFirstGo seen (x :: t) = dedupFirstGo seen t by
        simp [dedupFirstGo, hx]]
      exact ih seen
    · rw [show dedupFirstGo seen (x :: t) = x :: dedupFirstGo (x.1 :: seen) t by
        simp [dedupFirstGo, hx]]
      obtain ⟨hnd, hdisj⟩ := ih (x.1 :: seen)
      constructor
      · rw [List.map_cons, List.nodup_cons]
        exact ⟨fun hmem => hdisj _ hmem (List.mem_cons_self _ _), hnd⟩
      · rw [List.map_cons]
        intro k hk hks
        rcases List.mem_cons.mp hk with rfl | hk2
        · exact hx hks
        · exact hdisj k hk2 (List.mem_cons_of_mem _ hks)

theorem dedupFirst_keys_nodup (l : List (String × ℚ)) :
    ((dedupFirst l).map Prod.fst).Nodup :=
  (dedupFirstGo_keys l []).1

/-- C9: for every Over-Representation result set — from the pathway engine
`run_kegg_ora` and from the functional-class engine `run_cog_enrichment` —
the Benjamini–Hochberg corrected q-value (`p.adjust`) of each row is greater
than or equal to that row's raw p-value. -/
theorem c9_qvalue_ge_pvalue :
    (∀ (de all : List String) (links : List (String × List String))
        (pws : List (String × String)) (im : Option (List (String × String)))
        (mins maxs : ℕ) (r : KeggOraRecord),
        r ∈ run_kegg_ora de all links pws im mins maxs → r.pvalue ≤ r.p_adjust)
    ∧ (∀ (de all : List String) (cm : List (String × List String)) (mc : ℕ)
        (r : CogRecord),
        r ∈ run_cog_enrichment de all cm mc → r.pvalue ≤ r.p_adjust) := by
  constructor
  · intro de all links pws im mins maxs r h
    obtain ⟨r0, q, _, rfl, hle⟩ := mem_run_kegg_ora_inv h
    exact hle
  · intro de all cm mc r h
    obtain ⟨r0, q, _, rfl, hle⟩ := mem_run_cog_enrichment_inv h
    exact hle

theorem c9_witness :
    (keggRowInf ∈ run_kegg_ora ["g1"] ["g1", "g2", "g3", "g4"]
        [("g1", ["p1"]), ("g2", ["p1"]), ("g3", ["p1"])] [("p1", "Path One")] none 3 500
      ∧ keggRowInf.pvalue ≤ keggRowInf.p_adjust)
    ∧ (cogRowInf ∈ run_cog_enrichment ["g1", "g2"] ["g1", "g2", "g3"] [("g1", ["C"])] 1
      ∧ cogRowInf.pvalue ≤ cogRowInf.p_adjust) := by
  have hk : run_kegg_ora ["g1"] ["g1", "g2", "g3", "g4"]
      [("g1", ["p1"]), ("g2", ["p1"]), ("g3", ["p1"])] [("p1", "Path One")] none 3 500 =
      [keggRowInf] := by
    with_unfolding_all rfl
  have hc : run_cog_enrichment ["g1", "g2"] ["g1", "g2", "g3"] [("g1", ["C"])] 1 =
      [cogRowInf] := by
    with_unfolding_all rfl
  have hkm : keggRowInf ∈ run_kegg_ora ["g1"] ["g1", "g2", "g3", "g4"]
      [("g1", ["p1"]), ("g2", ["p1"]), ("g3", ["p1"])] [("p1", "Path One")] none 3 500 := by
    rw [hk]
    exact List.mem_singleton_self _
  have hcm : cogRowInf ∈ run_cog_enrichment ["g1", "g2"] ["g1", "g2", "g3"]
      [("g1", ["C"])] 1 := by
    rw [hc]
    exact List.mem_singleton_self _
  exact ⟨⟨hkm, c9_qvalue_ge_pvalue.1 _ _ _ _ _ _ _ _ hkm⟩,
    ⟨hcm, c9_qvalue_ge_pvalue.2 _ _ _ _ _ hcm⟩⟩

/-- C1, counterexample: `run_kegg_ora` applies no sentinel — with a
denominator cell `n - k = 0` the reported odds-ratio field is the infinite
value itself, so the claim as stated (sentinel in both engines) is false. -/
theorem c1_counterexample :
    (run_kegg_ora ["g1"] ["g1", "g2", "g3", "g4"]
      [("g1", ["p1"]), ("g2", ["p1"]), ("g3", ["p1"])] [("p1", "Path One")] none 3 500).map
      (fun r => r.OddsRatio) = [OddsVal.inf] := by
  decide

/-- C1 (amended): only the functional-class engine `run_cog_enrichment`
replaces an infinite odds ratio by the finite sentinel 999.0; for every one
of its result records whose contingency data yields the infinite odds-ratio
value, the reported field is `999`.  The pathway engine `run_kegg_ora`
performs no such replacement and reports the infinite value itself (see the
counterexample). -/
theorem c1_cog_sentinel_only :
    ∀ (de all : List String) (cm : List (String × List String)) (mc : ℕ)
      (r : CogRecord) (p : ℚ),
      r ∈ run_cog_enrichment de all cm mc →
      fisherOf r.DE_Count r.DE_Total r.Background_Count r.Background_Total =
        some (OddsVal.inf, p) →
      r.OddsRatio = OddsVal.val 999 := by
  intro de all cm mc r p hmem hfish
  obtain ⟨r0, q, h0, rfl, _⟩ := mem_run_cog_enrichment_inv hmem
  obtain ⟨op, hop, _, hodds, _⟩ := cogBase_mem_inv h0
  have hsome : some op = some (OddsVal.inf, p) := by
    rw [← hop]
    exact hfish
  cases hsome
  exact hodds

theorem c1_witness :
    (cogRowInf ∈ run_cog_enrichment ["g1", "g2"] ["g1", "g2", "g3"] [("g1", ["C"])] 1)
    ∧ fisherOf cogRowInf.DE_Count cogRowInf.DE_Total cogRowInf.Background_Count
        cogRowInf.Background_Total = some (OddsVal.inf, 2/3)
    ∧ cogRowInf.OddsRatio = OddsVal.val 999 := by
  have hc : run_cog_enrichment ["g1", "g2"] ["g1", "g2", "g3"] [("g1", ["C"])] 1 =
      [cogRowInf] := by
    with_unfolding_all rfl
  have hcm : cogRowInf ∈ run_cog_enrichment ["g1", "g2"] ["g1", "g2", "g3"]
      [("g1", ["C"])] 1 := by
    rw [hc]
    exact List.mem_singleton_self _
  have hfish : fisherOf cogRowInf.DE_Count cogRowInf.DE_Total cogRowInf.Background_Count
      cogRowInf.Background_Total = some (OddsVal.inf, 2/3) := by
    with_unfolding_all rfl
  exact ⟨hcm, hfish, c1_cog_sentinel_only _ _ _ _ cogRowInf (2/3) hcm hfish⟩

/-- C5, counterexample: the fold-enrichment field stored by
`run_cog_enrichment` is `round((k/n)/(K/N), 4)`, not the exact ratio — at
`k = 1, n = 3, K = 3, N = 7` the stored value `0.7778` differs from
`(1/3)/(3/7) = 7/9`.  (The pathway engine `run_kegg_ora` has no
fold-enrichment field at all, so the "every Over-Representation record"
phrasing already fails there.) -/
theorem c5_counterexample :
    ((run_cog_enrichment ["g1", "g2", "g3"] ["g1", "g2", "g3", "g4", "g5", "g6", "g7"]
        [("g1", ["C"]), ("g4", ["C"]), ("g5", ["C"])] 1).map
      (fun r => (r.DE_Count, r.DE_Total, r.Background_Count, r.Background_Total,
        r.Fold_Enrichment)) = [(1, 3, 3, 7, 3889/5000)])
    ∧ (3889 : ℚ)/5000 ≠ ((1 : ℚ)/3) / ((3 : ℚ)/7) := by
  constructor
  · with_unfolding_all rfl
  · norm_num

/-- C5 (amended): every `run_cog_enrichment` record carries a
`Fold_Enrichment` equal to `(k/n)/(K/N)` rounded to four decimal places when
`n > 0`, `N > 0` and `K > 0`, and exactly `0` otherwise; it is never negative,
and a record with `N = 1000, n = 50, K = 100, k = 20` carries exactly `4`.
(The pathway engine's records do not include the field.) -/
theorem c5_fold_enrichment :
    ∀ (de all : List String) (cm : List (String × List String)) (mc : ℕ)
      (r : CogRecord), r ∈ run_cog_enrichment de all cm mc →
      (0 < r.Background_Count ∧ 0 < r.DE_Total ∧ 0 < r.Background_Total →
        r.Fold_Enrichment = roundDec 4 (((r.DE_Count : ℚ) / r.DE_Total) /
          ((r.Background_Count : ℚ) / r.Background_Total)))
      ∧ ((r.Background_Count = 0 ∨ r.DE_Total = 0 ∨ r.Background_Total = 0) →
        r.Fold_Enrichment = 0)
      ∧ 0 ≤ r.Fold_Enrichment
      ∧ (r.DE_Count = 20 ∧ r.DE_Total = 50 ∧ r.Background_Count = 100 ∧
          r.Background_Total = 1000 → r.Fold_Enrichment = 4) := by
  intro de all cm mc r hmem
  obtain ⟨r0, q, h0, rfl, _⟩ := mem_run_cog_enrichment_inv hmem
  obtain ⟨op, hop, _, _, hfold, _⟩ := cogBase_mem_inv h0
  dsimp only
  refine ⟨?_, ?_, ?_, ?_⟩
  · intro hpos
    rw [hfold, if_pos hpos]
  · intro hzero
    rw [hfold, if_neg ?_]
    intro hc
    rcases hzero with h | h | h <;> omega
  · rw [hfold]
    split
    · apply roundDec_nonneg
      positivity
    · exact le_refl 0
  · rintro ⟨h1, h2, h3, h4⟩
    have hpos : 0 < r0.Background_Count ∧ 0 < r0.DE_Total ∧ 0 < r0.Background_Total := by
      omega
    rw [hfold, if_pos hpos, h1, h2, h3, h4]
    norm_num [roundDec, roundHalfEven]

theorem c5_witness :
    (cogRowFold ∈ run_cog_enrichment ["g1", "g2", "g3"]
      ["g1", "g2", "g3", "g4", "g5", "g6", "g7"]
      [("g1", ["C"]), ("g4", ["C"]), ("g5", ["C"])] 1)
    ∧ (0 < cogRowFold.Background_Count ∧ 0 < cogRowFold.DE_Total ∧
        0 < cogRowFold.Background_Total)
    ∧ cogRowFold.Fold_Enrichment =
        roundDec 4 (((cogRowFold.DE_Count : ℚ) / cogRowFold.DE_Total) /
          ((cogRowFold.Background_Count : ℚ) / cogRowFold.Background_Total)) := by
  have hc : run_cog_enrichment ["g1", "g2", "g3"] ["g1", "g2", "g3", "g4", "g5", "g6", "g7"]
      [("g1", ["C"]), ("g4", ["C"]), ("g5", ["C"])] 1 = [cogRowFold] := by
    with_unfolding_all rfl
  have hcm : cogRowFold ∈ run_cog_enrichment ["g1", "g2", "g3"]
      ["g1", "g2", "g3", "g4", "g5", "g6", "g7"]
      [("g1", ["C"]), ("g4", ["C"]), ("g5", ["C"])] 1 := by
    rw [hc]
    exact List.mem_singleton_self _
  have hpos : 0 < cogRowFold.Background_Count ∧ 0 < cogRowFold.DE_Total ∧
      0 < cogRowFold.Background_Total := by
    refine ⟨?_, ?_, ?_⟩ <;> decide
  exact ⟨hcm, hpos, (c5_fold_enrichment _ _ _ _ cogRowFold hcm).1 hpos⟩

/-- C3, counterexample: with an empty foreground (`n = 0`) but a non-empty
category index, `run_cog_enrichment` does not return an empty result — the
category with background support is still emitted (with `k = 0` and
`p = 1`), so the "holds for both engines" claim is false. -/
theorem c3_counterexample :
    (run_cog_enrichment [] ["g1"] [("g1", ["C"])] 1).length = 1 ∧
    dedupStr [] = [] := by
  constructor
  · decide
  · rfl

/-- C3 (amended): the pathway engine `run_kegg_ora` returns an empty result
(and raises nothing, the model being total) whenever the mapped foreground
set is empty or the pathway→gene index is empty; the functional-class engine
`run_cog_enrichment` returns an empty result when its category mapping is
empty (with the default-style `min_count ≥ 1`), but an empty foreground
alone yields `k = 0` records there rather than an empty result. -/
theorem c3_degenerate_empty :
    (∀ (de all : List String) (links : List (String × List String))
        (pws : List (String × String)) (im : Option (List (String × String)))
        (mins maxs : ℕ),
        mappedSet de im = [] ∨ buildPathwaySets links (mappedSet all im) = [] →
        run_kegg_ora de all links pws im mins maxs = [])
    ∧ (∀ (de all : List String) (mc : ℕ), 1 ≤ mc →
        run_cog_enrichment de all [] mc = []) := by
  constructor
  · intro de all links pws im mins maxs hdeg
    have hbase : keggOraBase de all links pws im mins maxs = [] := by
      unfold keggOraBase
      dsimp only
      rcases hdeg with hde | hlinks
      · rw [hde]
        apply List.filterMap_eq_nil_iff.mpr
        intro pws2 hmem
        dsimp only
        split
        · rfl
        · have hk : (List.filter (fun g => decide (g ∈ ([] : List String)))
              pws2.2).length = 0 := by simp
          rw [if_pos hk]
      · rw [hlinks]
        rfl
    unfold run_kegg_ora
    rw [hbase]
    simp
  · intro de all mc hmc
    have hbase : cogBase de all [] mc = [] := by
      unfold cogBase
      dsimp only
      apply List.filterMap_eq_nil_iff.mpr
      intro cat hmem
      dsimp only
      have hz : countCat (dedupStr all) [] cat = 0 := by
        unfold countCat
        simp
      rw [hz, if_pos (by omega)]
    unfold run_cog_enrichment
    rw [hbase]
    simp

theorem c3_witness :
    (mappedSet [] none = [] ∨
      buildPathwaySets [("g1", ["p1"])] (mappedSet ["g1"] none) = [])
    ∧ run_kegg_ora [] ["g1"] [("g1", ["p1"])] [("p1", "P")] none 3 500 = []
    ∧ (1 : ℕ) ≤ 1
    ∧ run_cog_enrichment ["a"] ["a"] [] 1 = [] := by
  refine ⟨Or.inl rfl, ?_, le_refl 1, ?_⟩
  · exact c3_degenerate_empty.1 [] ["g1"] [("g1", ["p1"])] [("p1", "P")] none 3 500
      (Or.inl rfl)
  · exact c3_degenerate_empty.2 ["a"] ["a"] 1 (le_refl 1)

/-- C4, counterexample: when two reference genes carry the same symbol
(`abc`), the symbol-match strategy maps the input to the LAST-encountered
candidate `g2`, not the first-encountered `g1` — each dict assignment while
building `kegg_symbol_to_id` overwrites the previous one. -/
theorem c4_counterexample :
    build_kegg_id_mapping [some "x"]
      [("g1", "abc; alpha protein"), ("g2", "abc; beta protein")] "eco"
      [("x", "abc")] [] = [("x", "g2")]
    ∧ ([("g1", "abc; alpha protein"), ("g2", "abc; beta protein")].filter
        (fun p => decide (symKeyOf p.2 = some "abc"))).head?.map Prod.fst = some "g1"
    ∧ "g1" ≠ "g2" := by
  refine ⟨by decide, by decide, by decide⟩

/-- C4 (amended): the resolver is deterministic — two invocations of
`build_kegg_id_mapping` on identical inputs produce the identical mapping —
and ties among equally-matching reference candidates are broken by a fixed
iteration order; for the symbol strategies the dictionary build overwrites,
so a symbol resolves to the LAST reference gene (in reference order)
carrying it, not the first. -/
theorem c4_determinism_last_tie :
    (∀ (ids : List (Option String)) (kg : List (String × String)) (org : String)
        (gm pm : List (String × String)),
        build_kegg_id_mapping ids kg org gm pm = build_kegg_id_mapping ids kg org gm pm)
    ∧ (∀ (kg : List (String × String)) (sym : String),
        (symTableOf kg).lookup sym = lastSymCandidate kg sym) :=
  ⟨fun _ _ _ _ _ => rfl, symTableOf_lookup⟩

/-- C6: an input identifier present verbatim as a key of the reference gene
dictionary resolves to itself — strategy 1 fires before any looser strategy,
whatever the alternate-name and product maps would have matched. -/
theorem c6_exact_match_wins :
    ∀ (ids : List (Option String)) (kg : List (String × String)) (org : String)
      (gm pm : List (String × String)) (g : String),
      some g ∈ ids → pyStrip g = g → (kg.lookup g).isSome →
      (build_kegg_id_mapping ids kg org gm pm).lookup g = some g := by
  intro ids kg org gm pm g hmem htrim hkey
  rw [build_kegg_id_mapping_eq_foldl]
  have hs : strategyResult kg (lowerTableOf kg) (symTableOf kg) (prodTableOf kg)
      gm pm g = some g := by
    unfold strategyResult
    rw [if_pos hkey]
  exact resolver_foldl_lookup_set hs ids [] ⟨g, hmem, htrim⟩

theorem c6_witness :
    (some "abc" ∈ [some "abc"])
    ∧ pyStrip "abc" = "abc"
    ∧ (([("abc", "zzz; stuff"), ("ghi", "abc; other")] :
        List (String × String)).lookup "abc").isSome
    ∧ (build_kegg_id_mapping [some "abc"]
        [("abc", "zzz; stuff"), ("ghi", "abc; other")] "eco" [] []).lookup "abc" =
      some "abc" := by
  refine ⟨by decide, by decide, by decide, ?_⟩
  exact c6_exact_match_wins [some "abc"] [("abc", "zzz; stuff"), ("ghi", "abc; other")]
    "eco" [] [] "abc" (by decide) (by decide) (by decide)

/-- C7: an input identifier that matches no reference identifier under any
of the five cascade strategies is simply absent from the resolver's output
mapping — no default is assigned and nothing is raised (the model is
total). -/
theorem c7_no_match_absent :
    ∀ (ids : List (Option String)) (kg : List (String × String)) (org : String)
      (gm pm : List (String × String)) (s : String),
      strategyResult kg (lowerTableOf kg) (symTableOf kg) (prodTableOf kg) gm pm s =
        none →
      (build_kegg_id_mapping ids kg org gm pm).lookup s = none := by
  intro ids kg org gm pm s hs
  rw [build_kegg_id_mapping_eq_foldl]
  exact resolver_foldl_lookup_none hs ids [] rfl

theorem c7_witness :
    strategyResult [("abc", "xyz; some protein")]
      (lowerTableOf [("abc", "xyz; some protein")])
      (symTableOf [("abc", "xyz; some protein")])
      (prodTableOf [("abc", "xyz; some protein")])
      [("g9", "")] [("g9", "")] "g9" = none
    ∧ (build_kegg_id_mapping [some "g9"] [("abc", "xyz; some protein")] "eco"
        [("g9", "")] [("g9", "")]).lookup "g9" = none := by
  refine ⟨by decide, ?_⟩
  exact c7_no_match_absent [some "g9"] [("abc", "xyz; some protein")] "eco"
    [("g9", "")] [("g9", "")] "g9" (by decide)

/-- C8: every value of the mapping returned by the identifier resolver is a
key of the supplied reference gene dictionary — the mapping's image is
contained in the reference identifier universe. -/
theorem c8_image_in_reference :
    ∀ (ids : List (Option String)) (kg : List (String × String)) (org : String)
      (gm pm : List (String × String)) (s v : String),
      (s, v) ∈ build_kegg_id_mapping ids kg org gm pm → (kg.lookup v).isSome := by
  intro ids kg org gm pm s v hmem
  rw [build_kegg_id_mapping_eq_foldl] at hmem
  refine foldl_value_prop (fun x => (kg.lookup x).isSome) ids [] ?_
    (by intro p hp; cases hp) (s, v) hmem
  intro acc x hx p hp
  rcases x with _ | g0
  · exact Or.inl hp
  · dsimp only [resolverStep] at hp
    rcases hstrat : strategyResult kg (lowerTableOf kg) (symTableOf kg)
        (prodTableOf kg) gm pm (pyStrip g0) with _ | w
    · rw [hstrat] at hp
      exact Or.inl hp
    · rw [hstrat] at hp
      rcases mem_insertD hp with h | h
      · exact Or.inl h
      · right
        rw [h]
        exact strategyResult_isSome_kegg hstrat

theorem c8_witness :
    (("a", "a") ∈ build_kegg_id_mapping [some "a"] [("a", "gene; a thing")] "eco" [] [])
    ∧ (([("a", "gene; a thing")] : List (String × String)).lookup "a").isSome := by
  refine ⟨by decide, ?_⟩
  exact c8_image_in_reference [some "a"] [("a", "gene; a thing")] "eco" [] [] "a" "a"
    (by decide)

/-- C10: in `run_kegg_gsea`'s re-identification step, a ranked gene with no
mapping entry is retained at its position under its original identifier
(the renamed ranking has the same length, so the gene still contributes to
the ranking length and to the non-member decrement step), and the subsequent
deduplication keeps only the first occurrence of each identifier: the kept
rows are a subsequence with duplicate-free identifiers, and each
identifier's surviving value is its first occurrence's value. -/
theorem c10_gsea_rename_dedup :
    ∀ (ranking : List (String × ℚ)) (m : List (String × String)),
      (gseaRename ranking (some m)).length = ranking.length
      ∧ (∀ (i : ℕ) (h : i < ranking.length)
          (h2 : i < (gseaRename ranking (some m)).length),
          m.lookup (ranking.get ⟨i, h⟩).1 = none →
          (gseaRename ranking (some m)).get ⟨i, h2⟩ = ranking.get ⟨i, h⟩)
      ∧ ((gseaRankingPrep ranking (some m)).map Prod.fst).Nodup
      ∧ (∀ g : String, (gseaRankingPrep ranking (some m)).lookup g =
          (gseaRename ranking (some m)).lookup g)
      ∧ (gseaRankingPrep ranking (some m)).Sublist (gseaRename ranking (some m)) := by
  intro ranking m
  refine ⟨?_, ?_, dedupFirst_keys_nodup _, dedupFirst_lookup _, dedupFirst_sublist _⟩
  · by_cases hm : m = []
    · simp [gseaRename, hm]
    · simp [gseaRename, hm]
  · intro i h h2 hnone
    by_cases hm : m = []
    · simp [gseaRename, hm]
    · simp only [gseaRename, if_neg hm, List.get_eq_getElem, List.getElem_map]
      rw [List.get_eq_getElem] at hnone
      simp [hnone]

theorem c10_witness :
    (gseaRename [("a", 2), ("b", 1), ("a", 3)] (some [("b", "B")])).length = 3
    ∧ ([("b", "B")] : List (String × String)).lookup "a" = none
    ∧ (gseaRename [("a", 2), ("b", 1), ("a", 3)] (some [("b", "B")])).get
        ⟨0, by decide⟩ = ("a", 2)
    ∧ ((gseaRankingPrep [("a", 2), ("b", 1), ("a", 3)] (some [("b", "B")])).map
        Prod.fst).Nodup
    ∧ (gseaRankingPrep [("a", 2), ("b", 1), ("a", 3)] (some [("b", "B")])).Sublist
        (gseaRename [("a", 2), ("b", 1), ("a", 3)] (some [("b", "B")])) := by
  obtain ⟨hlen, hpos, hnodup, _, hsub⟩ :=
    c10_gsea_rename_dedup [("a", 2), ("b", 1), ("a", 3)] [("b", "B")]
  refine ⟨hlen, by decide, ?_, hnodup, hsub⟩
  have h := hpos 0 (by decide) (by rw [hlen]; decide) (by decide)
  rw [h]
  rfl

/-- C2 (spec-modelled, `gseapy.prerank` is not in the repository): in the
rank enrichment engine, every surviving category's record is computed
independently of the others, so an internal numerical failure in one
category's computation — a degenerate enrichment statistic, reported
`none` — does not abort the call: the result still has one record per
surviving category, each equal to its own standalone per-category
computation, and a category whose ES computation fails is reported with
missing ES, NES and p-value while all other categories' records are
unaffected. -/
theorem c2_per_category_failure_contained :
    ∀ (ranking : List (String × ℚ)) (catSets : List (String × List String))
      (minSize maxSize : ℕ) (perms : List (List (String × String))),
      ¬ (ranking.length < 10 ∨ prerankSurviving ranking catSets minSize maxSize = []) →
      (prerank ranking catSets minSize maxSize perms).length =
        (prerankSurviving ranking catSets minSize maxSize).length
      ∧ (∀ (i : ℕ) (h : i < (prerankSurviving ranking catSets minSize maxSize).length)
          (h2 : i < (prerank ranking catSets minSize maxSize perms).length),
          (prerank ranking catSets minSize maxSize perms).get ⟨i, h2⟩ =
            prerankCategory ranking perms
              ((prerankSurviving ranking catSets minSize maxSize).get ⟨i, h⟩))
      ∧ (∀ (i : ℕ) (h : i < (prerankSurviving ranking catSets minSize maxSize).length)
          (h2 : i < (prerank ranking catSets minSize maxSize perms).length),
          esCore ranking ((prerankSurviving ranking catSets minSize maxSize).get
            ⟨i, h⟩).2 = none →
          ((prerank ranking catSets minSize maxSize perms).get ⟨i, h2⟩).es = none
          ∧ ((prerank ranking catSets minSize maxSize perms).get ⟨i, h2⟩).nes = none
          ∧ ((prerank ranking catSets minSize maxSize perms).get ⟨i, h2⟩).pval = none) := by
  intro ranking catSets minSize maxSize perms hdeg
  have hpr : prerank ranking catSets minSize maxSize perms =
      (prerankSurviving ranking catSets minSize maxSize).map
        (prerankCategory ranking perms) := by
    unfold prerank
    rw [if_neg hdeg]
  have hget : ∀ (i : ℕ) (h : i < (prerankSurviving ranking catSets minSize maxSize).length)
      (h2 : i < (prerank ranking catSets minSize maxSize perms).length),
      (prerank ranking catSets minSize maxSize perms).get ⟨i, h2⟩ =
        prerankCategory ranking perms
          ((prerankSurviving ranking catSets minSize maxSize).get ⟨i, h⟩) := by
    intro i h h2
    rw [List.get_eq_getElem]
    rw [List.getElem_of_eq hpr]
    simp [List.get_eq_getElem, List.getElem_map]
  refine ⟨by rw [hpr, List.length_map], hget, ?_⟩
  intro i h h2 hes
  rw [hget i h h2]
  unfold prerankCategory
  rw [hes]
  exact ⟨rfl, rfl, rfl⟩

theorem c2_witness :
    (¬ (rankingC.length < 10 ∨ prerankSurviving rankingC catsC 1 100 = []))
    ∧ (prerank rankingC catsC 1 100 []).length =
        (prerankSurviving rankingC catsC 1 100).length
    ∧ esCore rankingC ((prerankSurviving rankingC catsC 1 100).get
        ⟨0, by decide⟩).2 = none
    ∧ ((prerank rankingC catsC 1 100 []).get ⟨0, by with_unfolding_all decide⟩).es = none
    ∧ ((prerank rankingC catsC 1 100 []).get ⟨0, by with_unfolding_all decide⟩).nes = none
    ∧ ((prerank rankingC catsC 1 100 []).get ⟨0, by with_unfolding_all decide⟩).pval = none
    ∧ (prerank rankingC catsC 1 100 []).get ⟨1, by with_unfolding_all decide⟩ =
        prerankCategory rankingC [] ((prerankSurviving rankingC catsC 1 100).get
          ⟨1, by decide⟩) := by
  have hdeg : ¬ (rankingC.length < 10 ∨ prerankSurviving rankingC catsC 1 100 = []) := by
    decide
  obtain ⟨hlen, hget, hfail⟩ :=
    c2_per_category_failure_contained rankingC catsC 1 100 [] hdeg
  have hes : esCore rankingC ((prerankSurviving rankingC catsC 1 100).get
      ⟨0, by decide⟩).2 = none := by
    with_unfolding_all rfl
  obtain ⟨hes0, hnes0, hpval0⟩ := hfail 0 (by decide) (by with_unfolding_all decide) hes
  exact ⟨hdeg, hlen, hes, hes0, hnes0, hpval0,
    hget 1 (by decide) (by with_unfolding_all decide)⟩

/-- C6, counterexample: the resolver strips each input id before matching,
so an identifier carrying surrounding whitespace that is present verbatim as
a reference key is NOT mapped to itself — it is absent from the mapping
altogether. -/
theorem c6_counterexample :
    (([(" abc ", "desc")] : List (String × String)).lookup " abc ").isSome = true
    ∧ (build_kegg_id_mapping [some " abc "] [(" abc ", "desc")] "eco" [] []).lookup
        " abc " = none
    ∧ build_kegg_id_mapping [some " abc "] [(" abc ", "desc")] "eco" [] [] = [] := by
  refine ⟨by decide, by decide, by decide⟩
